import Mathlib

/-!
A shallow embedding of the call-stack profiler implemented in
`src/src/host/premake_main.c`.

The profiler hooks every Lua call/return event, builds a call tree of
`StackFrame` nodes weighted by rdtsc cycle counts, post-processes the tree
(`reduce_overhead`, `calculate_child_time`), flattens it into semicolon-joined
folded-stack records (`append_children`, `flatten_stacks`), sorts and folds
them (`qsort` + `fold_stacks`), and prints the result (`print_stacks`).

Modelling conventions:
* `uint64_t` cycle counters are `Nat` with explicit wraparound `% 2 ^ 64`
  (`add64`, `sub64`); `__rdtsc()` readings are inputs carried by events.
* C pointers used only as identities become the `Addr` inductive: a C function
  pointer is `Addr.cfn`, an interned Lua name string is `Addr.namePtr` of its
  contents (the Lua runtime interns names, so string equality coincides with
  pointer equality), a `strdup`-ed buffer is `Addr.strPtr` of a fresh
  allocation id with its contents kept in an explicit heap — two `strdup`s of
  the same text yield distinct pointers, exactly as in C.
* The intrusive `child`/`next` sibling pointers of `StackFrame` become a
  `List StackFrame` whose head is the most recently prepended child.
* The mutable `current_frame` cursor becomes an explicit path of code
  locations from the root; hook events drive a step function over that state.
* `fopen`/`fprintf` in `print_stacks` become a boolean "destination could be
  opened" flag and the list of lines that would be written.
-/

namespace Premake

/-- The modulus of 64-bit machine arithmetic. -/
def W : Nat := 2 ^ 64

/-- `uint64_t` addition with wraparound. -/
def add64 (a b : Nat) : Nat := (a + b) % W

/-- `uint64_t` subtraction `a - b` with wraparound (for `a < W`). -/
def sub64 (a b : Nat) : Nat := (a + W - b % W) % W

/-- The `CodeLocationType` enum of the source. -/
inductive CodeLocationType where
  | CLT_Lua
  | CLT_LuaAnonymous
  | CLT_C
  | CLT_Main
  deriving DecidableEq, Repr

/-- The `const void* addr` payload of a `CodeLocation`, split by what kind of
pointer it actually holds.  Pointers into distinct kinds of storage are never
equal in C, which the derived equality reflects. -/
inductive Addr where
  | nullA : Addr
  | cfn : Nat → Addr
  | namePtr : String → Addr
  | strPtr : Nat → Addr
  deriving DecidableEq, Repr

/-- The `CodeLocation` struct: a type tag plus a pointer payload. -/
structure CodeLocation where
  type : CodeLocationType
  addr : Addr
  deriving DecidableEq, Repr

/-- The `StackFrame` struct.  The C `child` head pointer together with the
`next` sibling chain is one Lean list (head = most recently added child); the
`parent` back-pointer is implicit in the tree structure. -/
inductive StackFrame where
  | mk (start elapsed : Nat) (code : CodeLocation) (children_time overhead : Nat)
      (child : List StackFrame)
  deriving Repr

def StackFrame.start : StackFrame → Nat
  | .mk s _ _ _ _ _ => s

def StackFrame.elapsed : StackFrame → Nat
  | .mk _ e _ _ _ _ => e

def StackFrame.code : StackFrame → CodeLocation
  | .mk _ _ c _ _ _ => c

def StackFrame.children_time : StackFrame → Nat
  | .mk _ _ _ ct _ _ => ct

def StackFrame.overhead : StackFrame → Nat
  | .mk _ _ _ _ ov _ => ov

def StackFrame.child : StackFrame → List StackFrame
  | .mk _ _ _ _ _ ch => ch

mutual

/-- `count_nodes`: one plus the node counts of all children. -/
def count_nodes : StackFrame → Nat
  | .mk _ _ _ _ _ ch => 1 + count_forest ch

def count_forest : List StackFrame → Nat
  | [] => 0
  | c :: rest => count_nodes c + count_forest rest

end

mutual

/-- `reduce_overhead`: every node's `elapsed` decreases by its `overhead`
(64-bit wrapping subtraction), recursing into all children. -/
def reduce_overhead : StackFrame → StackFrame
  | .mk s e c ct ov ch => .mk s (sub64 e ov) c ct ov (reduce_overhead_forest ch)

def reduce_overhead_forest : List StackFrame → List StackFrame
  | [] => []
  | c :: rest => reduce_overhead c :: reduce_overhead_forest rest

end

mutual

/-- `calculate_child_time`: post-order pass.  The C loop body is
`calculate_child_time(it); child_time = it->elapsed + it->children_time;` —
note the plain assignment, so after the loop `child_time` holds only the last
child's contribution (or 0 for a leaf).  `cct_forest` threads that
accumulator exactly as the loop does. -/
def calculate_child_time : StackFrame → StackFrame
  | .mk s e c _ ov ch =>
      let r := cct_forest ch 0
      .mk s (sub64 e r.2) c r.2 ov r.1

def cct_forest : List StackFrame → Nat → List StackFrame × Nat
  | [], acc => ([], acc)
  | f :: rest, _ =>
      let f2 := calculate_child_time f
      let r := cct_forest rest (add64 f2.elapsed f2.children_time)
      (f2 :: r.1, r.2)

end

/-- A `ResolvedFrame` cache entry: native address and resolved display name.
The C linked list through `next` is the enclosing Lean list. -/
structure ResolvedFrame where
  addr : Nat
  name : String
  deriving DecidableEq, Repr

/-- The linear scan of the `g_resolved` list in `resovle`. -/
def cache_find : List ResolvedFrame → Nat → Option String
  | [], _ => none
  | r :: rest, a => if r.addr = a then some r.name else cache_find rest a

/-- The `sprintf(buf, "0x%p", addr)` fallback of `resovle`, modelled as `0x`
followed by the hexadecimal digits of the address. -/
def fallback_name (addr : Nat) : String :=
  "0x" ++ String.mk (Nat.toDigits 16 addr)

/-- `resovle` (sic): look the address up in the cache; on a miss consult the
platform symbol table (`SymFromAddr`, modelled by the `plat` oracle) and cache
either the resolved name or the hexadecimal fallback.  Returns the name, the
new cache, and how many platform lookups this call performed. -/
def resovle (plat : Nat → Option String) (cache : List ResolvedFrame) (addr : Nat) :
    String × List ResolvedFrame × Nat :=
  match cache_find cache addr with
  | some n => (n, cache, 0)
  | none =>
      match plat addr with
      | some n => (n, ⟨addr, n⟩ :: cache, 1)
      | none => (fallback_name addr, ⟨addr, fallback_name addr⟩ :: cache, 1)

/-- The name a given address resolves to, independent of the cache. -/
def resolve_name (plat : Nat → Option String) (addr : Nat) : String :=
  match plat addr with
  | some n => n
  | none => fallback_name addr

/-- A cache is consistent when every entry stores the name its address
resolves to.  The initial empty cache (`g_resolved = NULL`) is consistent. -/
def cache_ok (plat : Nat → Option String) (cache : List ResolvedFrame) : Prop :=
  ∀ rf ∈ cache, rf.name = resolve_name plat rf.addr

/-- The `FlatStack` record: folded path text and elapsed cycles. -/
structure FlatStack where
  name : String
  elapsed : Nat
  deriving DecidableEq, Repr

/-- Contents of a Lua string pointer: interned name pointers carry their text,
`strdup`-ed pointers are looked up in the allocation heap. -/
def addr_string (heap : List (Nat × String)) : Addr → String
  | .namePtr s => s
  | .strPtr p =>
      match heap.find? (fun e => e.1 = p) with
      | some e => e.2
      | none => ""
  | .cfn _ => ""
  | .nullA => ""

/-- The numeric value of a C function pointer. -/
def cfnVal : Addr → Nat
  | .cfn p => p
  | _ => 0

mutual

/-- `append_children`: emit the record for this frame (its name is
`prefix ++ ";" ++ tag ++ display-name` per the switch in the source), then
recurse into the children with this name as the new prefix.  The resolver
cache (`g_resolved`) is threaded through in traversal order. -/
def append_children (plat : Nat → Option String) (heap : List (Nat × String)) :
    StackFrame → String → List ResolvedFrame → List FlatStack × List ResolvedFrame
  | .mk _ e c _ _ ch, pfx, cache =>
      let tagname : String × List ResolvedFrame :=
        match c.type with
        | .CLT_Lua => ("LUA:" ++ addr_string heap c.addr, cache)
        | .CLT_LuaAnonymous => ("LUA:" ++ addr_string heap c.addr, cache)
        | .CLT_C =>
            let r := resovle plat cache (cfnVal c.addr)
            ("C:" ++ r.1, r.2.1)
        | .CLT_Main => ("LUA:" ++ "Lua:main", cache)
      let myname := pfx ++ ";" ++ tagname.1
      let rest := append_forest plat heap ch myname tagname.2
      (⟨myname, e⟩ :: rest.1, rest.2)

def append_forest (plat : Nat → Option String) (heap : List (Nat × String)) :
    List StackFrame → String → List ResolvedFrame → List FlatStack × List ResolvedFrame
  | [], _, cache => ([], cache)
  | f :: rest, pfx, cache =>
      let r1 := append_children plat heap f pfx cache
      let r2 := append_forest plat heap rest pfx r1.2
      (r1.1 ++ r2.1, r2.2)

end

/-- `flatten_stacks`: one record per tree node, every root-level child
traversed with the fixed prefix `"root"` and an initially empty resolver
cache. -/
def flatten_stacks (plat : Nat → Option String) (heap : List (Nat × String))
    (root : StackFrame) : List FlatStack :=
  (append_forest plat heap root.child "root" []).1

/-- The record ordering of `qsort_compare_stacks`: `strcmp` on the names.
UTF-8 byte order coincides with code-point order, so Lean's `String` order
matches `strcmp`. -/
def nameLe (a b : FlatStack) : Prop := a.name ≤ b.name

instance : DecidableRel nameLe :=
  fun a b => inferInstanceAs (Decidable (a.name ≤ b.name))

instance : IsTotal FlatStack nameLe := ⟨fun a b => le_total a.name b.name⟩

instance : IsTrans FlatStack nameLe := ⟨fun _ _ _ h1 h2 => le_trans h1 h2⟩

/-- The `qsort` call in `main`, modelled as a sort by `nameLe` (the C
standard leaves `qsort`'s exact permutation unspecified beyond being sorted
under the comparator, so any sorting algorithm is a faithful model). -/
def sort_stacks (l : List FlatStack) : List FlatStack :=
  l.insertionSort nameLe

/-- The merge loop of `fold_stacks`, carried out on the record under the write
cursor (`w`) against the remaining reads: an equal name folds its elapsed into
`w`, a different name finalizes `w` and restarts from the read record. -/
def fold_go : FlatStack → List FlatStack → List FlatStack
  | w, [] => [w]
  | w, r :: rest =>
      if r.name = w.name then fold_go ⟨w.name, add64 w.elapsed r.elapsed⟩ rest
      else w :: fold_go r rest

/-- The array contents `stacks[0..write_index]` after `fold_stacks` runs on a
nonempty input (on an empty input the C loop reads out of bounds). -/
def fold_merged : List FlatStack → List FlatStack
  | [] => []
  | r :: rest => fold_go r rest

/-- The records `main` actually prints: `fold_stacks` returns `write_index`
(not `write_index + 1`), so only the first `write_index` merged records —
all but the last — survive as the folded count. -/
def fold_printed (l : List FlatStack) : List FlatStack :=
  (fold_merged l).dropLast

/-- `print_stacks`: if the destination opens, one line per record
(`name`, space, decimal elapsed, newline); otherwise nothing is written. -/
def print_stacks (openOk : Bool) (l : List FlatStack) : List String :=
  if openOk then l.map (fun s => s.name ++ " " ++ toString s.elapsed ++ "\n") else []

/-- The tail of `main` after `premake_init`/`premake_execute`: the host result
`z` is computed first, the profiling pipeline runs afterwards, and `main`
returns `z`.  `okay` is the `OKAY` constant, `initR`/`execR` the host results,
`root` the finished tree, `openOk` whether `fopen` of the report succeeded. -/
def main_model (okay initR execR : Int) (plat : Nat → Option String)
    (heap : List (Nat × String)) (root : StackFrame) (openOk : Bool) :
    Int × List String :=
  let z := if initR = okay then execR else initR
  let t1 := reduce_overhead root
  let t2 := calculate_child_time t1
  let folded := fold_printed (sort_stacks (flatten_stacks plat heap t2))
  (z, print_stacks openOk folded)

/-- The fields of `lua_Debug` that `parseCodeLocation` reads after
`lua_getinfo(L, "nS", ar)` (plus the `currentline` it fetches on demand):
the `what` kind string, the optional `name`, the chunk `source`, the current
line, and — for C frames — the function's entry address (`lua_getcfunc`). -/
structure LuaDebug where
  what : String
  name : Option String
  source : String
  currentline : Nat
  cfunc : Nat
  deriving DecidableEq, Repr

/-- The test `ar->name && ar->name[0] != '?'`: a null name fails, otherwise
the first byte must not be `?` (an empty C string has first byte `NUL`, which
passes). -/
def name_usable : Option String → Bool
  | none => false
  | some s =>
      match s.data with
      | [] => true
      | c :: _ => decide (c ≠ '?')

/-- The `strrchr(source, '/')` basename step: everything after the last
slash, or the whole string when there is no slash. -/
def basename_go : List Char → List Char
  | [] => []
  | c :: rest =>
      if c = '/' then basename_go rest
      else if rest.contains '/' then basename_go rest
      else c :: rest

def strip_dirs (s : String) : String :=
  String.mk (basename_go s.data)

/-- Allocator plus string heap threaded through classification: `next` is the
next fresh `strdup` pointer, `heap` records each allocation's contents. -/
structure AllocState where
  next : Nat
  heap : List (Nat × String)
  deriving DecidableEq, Repr

/-- `parseCodeLocation`: classify a call-site descriptor.
`"C"` yields a native location keyed by the function address; `"Lua"` with a
usable name yields a named location keyed by the (interned) name pointer;
`"Lua"` without one formats `basename:line` into a buffer and `strdup`s it —
a fresh pointer on every call; `"main"` yields the program-entry location
with a null payload.  Any other kind hits `assert(0); abort()`, modelled as
`none`. -/
def parseCodeLocation (ar : LuaDebug) (st : AllocState) :
    Option (CodeLocation × AllocState) :=
  if ar.what = "C" then
    some (⟨.CLT_C, .cfn ar.cfunc⟩, st)
  else if ar.what = "Lua" then
    if name_usable ar.name then
      some (⟨.CLT_Lua, .namePtr (ar.name.getD "")⟩, st)
    else
      let buffer := strip_dirs ar.source ++ ":" ++ toString ar.currentline
      some (⟨.CLT_LuaAnonymous, .strPtr st.next⟩,
        ⟨st.next + 1, (st.next, buffer) :: st.heap⟩)
  else if ar.what = "main" then
    some (⟨.CLT_Main, .nullA⟩, st)
  else
    none

/-- The linear search of `findChildInCurrent` over the sibling chain:
does any child carry this code location (`type` and `addr` both equal)? -/
def hasCode (cl : CodeLocation) : List StackFrame → Bool
  | [] => false
  | c :: rest => if c.code = cl then true else hasCode cl rest

/-- Apply `g` to the first child whose code equals `cl` (the child
`findChildInCurrent` returns), leaving the rest of the chain alone. -/
def updCode (cl : CodeLocation) (g : StackFrame → StackFrame) :
    List StackFrame → List StackFrame
  | [] => []
  | c :: rest => if c.code = cl then g c :: rest else c :: updCode cl g rest

/-- The mutation `hook_enter` performs on the frame it lands in:
`frame->start = t0; frame->overhead = t1 - t0;` — both plain assignments. -/
def set_enter (t0 t1 : Nat) : StackFrame → StackFrame
  | .mk _ e c ct _ ch => .mk (t0 % W) e c ct (sub64 t1 t0) ch

/-- `findChildInCurrent` plus the `hook_enter` field writes, at the level of
one children list: reuse the first matching child, else prepend a fresh
`calloc`-zeroed frame carrying the new location (the source links the new
frame in at the head of the chain). -/
def enter_children (cl : CodeLocation) (t0 t1 : Nat) (ch : List StackFrame) :
    List StackFrame :=
  if hasCode cl ch then updCode cl (set_enter t0 t1) ch
  else .mk (t0 % W) 0 cl 0 (sub64 t1 t0) [] :: ch

/-- Perform a call event in the subtree: walk down the cursor path, then
enter at the current frame's children. -/
def enterAt (cl : CodeLocation) (t0 t1 : Nat) : StackFrame → List CodeLocation → StackFrame
  | .mk s e c ct ov ch, [] => .mk s e c ct ov (enter_children cl t0 t1 ch)
  | .mk s e c ct ov ch, d :: p =>
      .mk s e c ct ov (updCode d (fun f => enterAt cl t0 t1 f p) ch)

/-- The mutation `hook_leave` performs on the frame being left:
`current_frame->elapsed += (stop - current_frame->start)`. -/
def set_leave (tStop : Nat) : StackFrame → StackFrame
  | .mk s e c ct ov ch => .mk s (add64 e (sub64 tStop s)) c ct ov ch

/-- Perform a return event: credit elapsed time to the frame at the cursor
path, then add the bookkeeping cost `t1 - tStop` to its parent's overhead
(`+=`, an accumulation this time). -/
def leaveAt (tStop t1 : Nat) : StackFrame → List CodeLocation → StackFrame
  | f, [] => f
  | .mk s e c ct ov ch, [d] =>
      .mk s e c ct (add64 ov (sub64 t1 tStop)) (updCode d (set_leave tStop) ch)
  | .mk s e c ct ov ch, d :: p =>
      .mk s e c ct ov (updCode d (fun f => leaveAt tStop t1 f p) ch)

/-- One hook event: a call with its two rdtsc readings (`t0` before the
bookkeeping, `t1` after), or a return with its two readings (`tStop`, then
the reading taken after the cursor moved up).  `LUA_HOOKRET` and
`LUA_HOOKTAILRET` both run `hook_leave`, so one return event covers both. -/
inductive Event where
  | call (ar : LuaDebug) (t0 t1 : Nat)
  | ret (tStop t1 : Nat)
  deriving DecidableEq, Repr

/-- The profiler's process-wide state: the tree hanging off `root_frame`, the
`current_frame` cursor as the path of code locations from the root, and the
`strdup` allocator. -/
structure PState where
  tree : StackFrame
  path : List CodeLocation
  alloc : AllocState
  deriving Repr

/-- `root_frame = {0}`: a zero-initialized sentinel (its `code` is the all
zero bits pattern, i.e. `CLT_Lua` with a null pointer), with the cursor
`current_frame` pointing at it. -/
def init_state : PState :=
  ⟨.mk 0 0 ⟨.CLT_Lua, .nullA⟩ 0 0 [], [], ⟨0, []⟩⟩

/-- Run the hook over an event list, also collecting, for every call event,
the observed pair (path of the parent frame, classified code location).
`none` models the two undefined/fatal situations: an unclassifiable call kind
(`assert(0); abort()`) and a return at the root sentinel (the subsequent
`current_frame = current_frame->parent` would be a null dereference). -/
def runT (s : PState) :
    List Event → Option (PState × List (List CodeLocation × CodeLocation))
  | [] => some (s, [])
  | .call ar t0 t1 :: rest =>
      match parseCodeLocation ar s.alloc with
      | none => none
      | some (cl, st) =>
          match runT ⟨enterAt cl t0 t1 s.tree s.path, s.path ++ [cl], st⟩ rest with
          | none => none
          | some (s2, ps) => some (s2, (s.path, cl) :: ps)
  | .ret tStop t1 :: rest =>
      match s.path with
      | [] => none
      | _ :: _ => runT ⟨leaveAt tStop t1 s.tree s.path, s.path.dropLast, s.alloc⟩ rest

/-- The spec's notion of code-location identity ("same variant and same
payload; for anonymous locations, same formatted `file:line` string").
Modelled from the spec, for comparison against the pointer identity the code
actually uses. -/
def specKey (heap : List (Nat × String)) (c : CodeLocation) : CodeLocationType × String :=
  match c.type with
  | .CLT_C => (c.type, toString (cfnVal c.addr))
  | .CLT_Main => (c.type, "")
  | .CLT_Lua => (c.type, addr_string heap c.addr)
  | .CLT_LuaAnonymous => (c.type, addr_string heap c.addr)

/-- A named Lua function `A` in `t.lua`. -/
def arA : LuaDebug := ⟨"Lua", some "A", "t.lua", 1, 0⟩

/-- An anonymous Lua call site, `dir/test.lua` line 7. -/
def arAnon : LuaDebug := ⟨"Lua", none, "dir/test.lua", 7, 0⟩

/-- Two activations of the same function: the enter bookkeeping costs 5
cycles the first time (rdtsc pair 0,5) and 3 cycles the second (20,23). -/
def evsC3 : List Event := [.call arA 0 5, .ret 10 11, .call arA 20 23, .ret 30 31]

/-- Two calls from the root to the same anonymous call site. -/
def evsC4 : List Event := [.call arAnon 0 1, .ret 2 3, .call arAnon 4 5, .ret 6 7]

/-- A single completed top-level call with 1 cycle of bookkeeping charged to
the root on each side. -/
def evsC5 : List Event := [.call arA 0 1, .ret 10 11]

/-- A node with two children (elapsed 1 and 2, no grandchildren), under
which the children-time aggregation bug shows. -/
def exC1 : StackFrame :=
  .mk 0 10 ⟨.CLT_Main, .nullA⟩ 0 0
    [.mk 0 1 ⟨.CLT_Lua, .namePtr "A"⟩ 0 0 [], .mk 0 2 ⟨.CLT_Lua, .namePtr "B"⟩ 0 0 []]

/-- A sorted flat-stack array with a duplicated path `a` and a distinct
path `b`. -/
def exC2 : List FlatStack := [⟨"a", 1⟩, ⟨"a", 2⟩, ⟨"b", 3⟩]

/-- An already-folded record set: two records with distinct paths. -/
def exC6 : List FlatStack := [⟨"a", 1⟩, ⟨"b", 2⟩]

mutual

/-- All nodes of a tree in pre-order, the node itself included. -/
def all_nodes : StackFrame → List StackFrame
  | .mk s e c ct ov ch => .mk s e c ct ov ch :: all_nodes_forest ch

def all_nodes_forest : List StackFrame → List StackFrame
  | [] => []
  | f :: rest => all_nodes f ++ all_nodes_forest rest

end

/-- A small tree on which the overhead-compensation hypothesis holds. -/
def exC5w : StackFrame :=
  .mk 0 10 ⟨.CLT_Lua, .namePtr "A"⟩ 0 3 [.mk 0 5 ⟨.CLT_Lua, .namePtr "B"⟩ 0 5 []]

/-- The code-location skeleton of a frame tree, timing fields erased. -/
inductive Shape where
  | mk (code : CodeLocation) (child : List Shape)
  deriving Repr

def Shape.code : Shape → CodeLocation
  | .mk c _ => c

def Shape.child : Shape → List Shape
  | .mk _ ch => ch

mutual

def shapeOf : StackFrame → Shape
  | .mk _ _ c _ _ ch => .mk c (shapeForest ch)

def shapeForest : List StackFrame → List Shape
  | [] => []
  | f :: rest => shapeOf f :: shapeForest rest

end

mutual

/-- The code-location paths from a node to each of its strict descendants,
in the pre-order the flattener traverses them. -/
def sPaths : Shape → List (List CodeLocation)
  | .mk _ ch => sPathsF ch

def sPathsF : List Shape → List (List CodeLocation)
  | [] => []
  | t :: rest => ([t.code] :: (sPaths t).map (fun q => t.code :: q)) ++ sPathsF rest

end

/-- The display segment of one code location: the kind tag (`LUA:` / `C:`)
followed by the display name, native addresses resolved to their canonical
name. -/
def seg_string (plat : Nat → Option String) (heap : List (Nat × String))
    (c : CodeLocation) : String :=
  match c.type with
  | .CLT_Lua => "LUA:" ++ addr_string heap c.addr
  | .CLT_LuaAnonymous => "LUA:" ++ addr_string heap c.addr
  | .CLT_C => "C:" ++ resolve_name plat (cfnVal c.addr)
  | .CLT_Main => "LUA:" ++ "Lua:main"

/-- Fold path segments onto a prefix: `pfx;seg c1;seg c2;...`. -/
def path_fold (plat : Nat → Option String) (heap : List (Nat × String))
    (pfx : String) (p : List CodeLocation) : String :=
  p.foldl (fun acc c => acc ++ ";" ++ seg_string plat heap c) pfx

/-- The full path text of a node reached by `p` from the root sentinel. -/
def path_string (plat : Nat → Option String) (heap : List (Nat × String))
    (p : List CodeLocation) : String :=
  path_fold plat heap "root" p

/-- The sibling-chain search of `findChildInCurrent`, on shapes. -/
def findS (d : CodeLocation) : List Shape → Option Shape
  | [] => none
  | t :: rest => if t.code = d then some t else findS d rest

/-- Is `p` the path of a node (or the empty path, the root itself)?  Each
step resolves like the first-match search of `findChildInCurrent`. -/
def sHasPath : Shape → List CodeLocation → Bool
  | _, [] => true
  | t, d :: p =>
      match findS d t.child with
      | none => false
      | some u => sHasPath u p

/-- `updCode` on shapes: rewrite the first child carrying code `d`. -/
def updS (d : CodeLocation) (g : Shape → Shape) : List Shape → List Shape
  | [] => []
  | t :: rest => if t.code = d then g t :: rest else t :: updS d g rest

/-- `enter_children` on shapes: an existing child with this code leaves the
skeleton untouched, otherwise a fresh leaf is prepended. -/
def enterChildrenS (d : CodeLocation) (ch : List Shape) : List Shape :=
  match findS d ch with
  | some _ => ch
  | none => .mk d [] :: ch

/-- `enterAt` on shapes. -/
def enterAtS (d : CodeLocation) : Shape → List CodeLocation → Shape
  | .mk c ch, [] => .mk c (enterChildrenS d ch)
  | .mk c ch, b :: p => .mk c (updS b (fun t => enterAtS d t p) ch)

mutual

/-- `count_nodes` on shapes. -/
def sCount : Shape → Nat
  | .mk _ ch => 1 + sCountF ch

def sCountF : List Shape → Nat
  | [] => 0
  | t :: rest => sCount t + sCountF rest

end

/-- The codes of a sibling chain. -/
def codesOf (l : List Shape) : List CodeLocation := l.map Shape.code

mutual

/-- Every node's children carry pairwise distinct code locations — the
invariant `findChildInCurrent` maintains by construction. -/
def sibsOk : Shape → Prop
  | .mk _ ch => (codesOf ch).Nodup ∧ sibsOkF ch

def sibsOkF : List Shape → Prop
  | [] => True
  | t :: rest => sibsOk t ∧ sibsOkF rest

end

/-- The builder's state invariant: distinct sibling codes everywhere and a
cursor path that denotes an actual node (or the root). -/
def StInv (s : PState) : Prop :=
  sibsOk (shapeOf s.tree) ∧ sHasPath (shapeOf s.tree) s.path = true


/-- The final state and observed pairs of the anonymous-site trace. -/
def c4run : PState × List (List CodeLocation × CodeLocation) :=
  (runT init_state evsC4).getD (init_state, [])


/-- C1: on a node with two children contributing `1 + 0` and `2 + 0`, the
finished pass leaves `children_time = 2` (the last child only) while the sum
over all children is `3`, and `elapsed` drops by `2` (from 10 to 8) rather
than by the sum: the loop assigns `child_time = it->elapsed +
it->children_time` instead of accumulating. -/
theorem c1_code_bug :
    (calculate_child_time exC1).children_time = 2 ∧
    ((calculate_child_time exC1).child.map (fun c => c.elapsed + c.children_time)).sum = 3 ∧
    (calculate_child_time exC1).elapsed = 8 ∧ (2 : Nat) ≠ 3 := by decide

/-- C2: folding the sorted array `[(a,1), (a,2), (b,3)]` does merge the two
`a` records into `(a,3)`, but `fold_stacks` returns `write_index` — one less
than the merged record count — so the printed folded output is just
`[(a,3)]`: the record for the distinct path `b` is dropped, although the
input has two distinct paths. -/
theorem c2_code_bug :
    fold_printed exC2 = [⟨"a", 3⟩] ∧
    ((exC2.map FlatStack.name).dedup).length = 2 := by decide

/-- C3: entering the same frame twice with bookkeeping costs 5 then 3, the
frame ends with `overhead = 3`, not the accumulated `5 + 3`: `hook_enter`
assigns `frame->overhead = t1 - t0`, overwriting the previous activation's
cost. -/
theorem c3_code_bug :
    (runT init_state evsC3).map (fun r => r.1.tree.child.map StackFrame.overhead)
      = some [3] ∧ (3 : Nat) ≠ 5 + 3 := by decide

/-- C4 counterexample: two calls from the root to the same anonymous call
site (`test.lua:7`) produce two distinct tree nodes, while under the spec's
location identity (same variant, same formatted `file:line` string) only one
distinct (parent-path, code-location) pair was observed: `strdup` hands each
call a fresh pointer and `findChildInCurrent` compares pointers, so the
claimed reuse does not happen. -/
theorem c4_counterexample :
    (runT init_state evsC4).map
      (fun r => (count_forest r.1.tree.child,
        (r.2.map (fun pr =>
          (pr.1.map (specKey r.1.alloc.heap), specKey r.1.alloc.heap pr.2))).dedup.length))
      = some (2, 1) ∧ (2 : Nat) ≠ 1 := by decide

/-- C5 counterexample: after one completed top-level call the root sentinel
holds `elapsed = 0` and `overhead = 1` (return bookkeeping is charged to the
resumed parent), so `reduce_overhead` wraps its elapsed around to
`2 ^ 64 - 1`: the subtraction does underflow on the root. -/
theorem c5_counterexample :
    (runT init_state evsC5).map
      (fun r => (r.1.tree.elapsed, r.1.tree.overhead, (reduce_overhead r.1.tree).elapsed))
      = some (0, 1, W - 1) ∧ 0 < W - 1 := by decide

/-- C6: folding the duplicate-free record set `[(a,1), (b,2)]` yields
`[(a,1)]`, not the same set: the returned count `write_index` cuts off the
last record, so the fold is not idempotent as claimed. -/
theorem c6_code_bug :
    fold_printed exC6 = [⟨"a", 1⟩] ∧
    exC6.Pairwise (fun x y => x.name ≠ y.name) ∧
    fold_printed exC6 ≠ exC6 := by decide

theorem cache_find_ok (plat : Nat → Option String) (cache : List ResolvedFrame) :
    cache_ok plat cache → ∀ a n, cache_find cache a = some n → n = resolve_name plat a := by
  induction cache with
  | nil => intro _ a n h; simp [cache_find] at h
  | cons r rest ih =>
      intro hc a n h
      rw [cache_find] at h
      by_cases hr : r.addr = a
      · rw [if_pos hr] at h
        have h1 : r.name = n := Option.some.inj h
        have h2 := hc r (by simp)
        rw [← h1, h2, hr]
      · rw [if_neg hr] at h
        exact ih (fun rf hm => hc rf (by simp [hm])) a n h

/-- When the cache already holds the address, `resovle` answers from it and
performs no platform lookup. -/
theorem resovle_hit (plat : Nat → Option String) (cache : List ResolvedFrame)
    (a : Nat) (n : String) (h : cache_find cache a = some n) :
    resovle plat cache a = (n, cache, 0) := by
  unfold resovle
  rw [h]

theorem resovle_lookups_le (plat : Nat → Option String) (cache : List ResolvedFrame)
    (a : Nat) : (resovle plat cache a).2.2 ≤ 1 := by
  unfold resovle
  cases cache_find cache a with
  | some n => simp
  | none => cases plat a with
    | some n => simp
    | none => simp

/-- From a consistent cache, `resovle` returns the address's canonical name,
keeps the cache consistent, and leaves the address cached under that name. -/
theorem resovle_ok (plat : Nat → Option String) (cache : List ResolvedFrame)
    (a : Nat) (hc : cache_ok plat cache) :
    (resovle plat cache a).1 = resolve_name plat a ∧
    cache_ok plat (resovle plat cache a).2.1 ∧
    cache_find (resovle plat cache a).2.1 a = some (resolve_name plat a) := by
  unfold resovle
  cases hcf : cache_find cache a with
  | some n =>
      have hn := cache_find_ok plat cache hc a n hcf
      refine ⟨hn, hc, ?_⟩
      rw [hcf, hn]
  | none =>
      have hkeeps : ∀ m, m = resolve_name plat a →
          cache_ok plat (ResolvedFrame.mk a m :: cache) := by
        intro m hm rf hmem
        rcases List.mem_cons.mp hmem with h1 | h1
        · subst h1; exact hm
        · exact hc rf h1
      cases hp : plat a with
      | some n =>
          refine ⟨by simp [resolve_name, hp], hkeeps n (by simp [resolve_name, hp]), ?_⟩
          simp [cache_find, resolve_name, hp]
      | none =>
          refine ⟨by simp [resolve_name, hp], ?_, ?_⟩
          · exact hkeeps (fallback_name a) (by simp [resolve_name, hp])
          · simp [cache_find, resolve_name, hp]

theorem fallback_name_ne (a : Nat) : fallback_name a ≠ "" := by
  intro h
  have h2 := congrArg String.data h
  simp [fallback_name] at h2

/-- C7: starting from any consistent resolver cache (the process starts with
the empty one), resolving an address twice returns the identical name both
times, the second resolution is served from the cache, the two resolutions
together perform at most one platform lookup, the name ends up cached, and
when the platform cannot resolve the address the returned name is the
deterministic, non-empty hexadecimal fallback. -/
theorem c7_theorem (plat : Nat → Option String) (cache : List ResolvedFrame)
    (a : Nat) (hc : cache_ok plat cache) :
    (resovle plat (resovle plat cache a).2.1 a).1 = (resovle plat cache a).1 ∧
    (resovle plat (resovle plat cache a).2.1 a).2.2 = 0 ∧
    (resovle plat cache a).2.2 + (resovle plat (resovle plat cache a).2.1 a).2.2 ≤ 1 ∧
    cache_find (resovle plat cache a).2.1 a = some ((resovle plat cache a).1) ∧
    (plat a = none →
      (resovle plat cache a).1 = fallback_name a ∧ (resovle plat cache a).1 ≠ "") := by
  obtain ⟨h1, _, h3⟩ := resovle_ok plat cache a hc
  have hsecond := resovle_hit plat (resovle plat cache a).2.1 a (resolve_name plat a) h3
  refine ⟨?_, ?_, ?_, ?_, ?_⟩
  · rw [hsecond, h1]
  · rw [hsecond]
  · rw [hsecond]
    simpa using resovle_lookups_le plat cache a
  · rw [h3, h1]
  · intro hp
    have hf : resolve_name plat a = fallback_name a := by simp [resolve_name, hp]
    exact ⟨by rw [h1, hf], by rw [h1, hf]; exact fallback_name_ne a⟩

/-- C7 witness: instantiated at the unresolvable address 255 with an empty
cache. -/
theorem c7_witness :
    (resovle (fun _ => (none : Option String))
        (resovle (fun _ => (none : Option String)) [] 255).2.1 255).1
      = (resovle (fun _ => (none : Option String)) [] 255).1 ∧
    (resovle (fun _ => (none : Option String))
        (resovle (fun _ => (none : Option String)) [] 255).2.1 255).2.2 = 0 ∧
    (resovle (fun _ => (none : Option String)) [] 255).2.2 +
      (resovle (fun _ => (none : Option String))
        (resovle (fun _ => (none : Option String)) [] 255).2.1 255).2.2 ≤ 1 ∧
    cache_find (resovle (fun _ => (none : Option String)) [] 255).2.1 255
      = some ((resovle (fun _ => (none : Option String)) [] 255).1) ∧
    ((fun _ => (none : Option String)) 255 = none →
      (resovle (fun _ => (none : Option String)) [] 255).1 = fallback_name 255 ∧
      (resovle (fun _ => (none : Option String)) [] 255).1 ≠ "") :=
  c7_theorem (fun _ => (none : Option String)) [] 255
    (fun rf hm => absurd hm (List.not_mem_nil rf))

/-- C8: when the report destination does not open, the profiler writes
nothing, and `main`'s result is exactly the host result (`premake_init`,
or `premake_execute` when init returned `OKAY`), whatever the profiling
pipeline computed. -/
theorem c8_theorem (okay initR execR : Int) (plat : Nat → Option String)
    (heap : List (Nat × String)) (root : StackFrame) (openOk : Bool)
    (h : openOk = false) :
    (main_model okay initR execR plat heap root openOk).2 = [] ∧
    (main_model okay initR execR plat heap root openOk).1
      = (if initR = okay then execR else initR) := by
  subst h
  exact ⟨rfl, rfl⟩

/-- C8 witness: instantiated at a failed `fopen` with host results 0 and 1. -/
theorem c8_witness :
    (main_model 0 0 1 (fun _ => (none : Option String)) []
      (.mk 0 0 ⟨.CLT_Lua, .nullA⟩ 0 0 []) false).2 = [] ∧
    (main_model 0 0 1 (fun _ => (none : Option String)) []
      (.mk 0 0 ⟨.CLT_Lua, .nullA⟩ 0 0 []) false).1
      = (if (0 : Int) = 0 then 1 else 0) :=
  c8_theorem 0 0 1 (fun _ => (none : Option String)) []
    (.mk 0 0 ⟨.CLT_Lua, .nullA⟩ 0 0 []) false rfl

/-- Every record the fold loop emits carries a name already present in the
write record or the remaining reads. -/
theorem fold_go_names : ∀ (l : List FlatStack) (w x : FlatStack), x ∈ fold_go w l →
    x.name ∈ w.name :: l.map FlatStack.name := by
  intro l
  induction l with
  | nil =>
      intro w x hx
      rw [fold_go] at hx
      simp at hx
      simp [hx]
  | cons r rest ih =>
      intro w x hx
      rw [fold_go] at hx
      by_cases hr : r.name = w.name
      · rw [if_pos hr] at hx
        have h2 := ih _ x hx
        simp at h2 ⊢
        tauto
      · rw [if_neg hr] at hx
        rcases List.mem_cons.mp hx with h | h
        · simp [h]
        · have h2 := ih r x h
          simp at h2 ⊢
          tauto

/-- The fold loop keeps a sorted tail sorted. -/
theorem fold_go_sorted : ∀ (l : List FlatStack) (w : FlatStack),
    List.Sorted nameLe (w :: l) → List.Sorted nameLe (fold_go w l) := by
  intro l
  induction l with
  | nil =>
      intro w _
      rw [fold_go]
      exact List.sorted_singleton w
  | cons r rest ih =>
      intro w h
      rw [List.sorted_cons] at h
      obtain ⟨hw, hrt⟩ := h
      rw [fold_go]
      by_cases hr : r.name = w.name
      · rw [if_pos hr]
        apply ih
        rw [List.sorted_cons] at hrt ⊢
        obtain ⟨hr2, hrest⟩ := hrt
        refine ⟨?_, hrest⟩
        intro b hb
        have h3 := hr2 b hb
        unfold nameLe at h3 ⊢
        rw [show (FlatStack.mk w.name (add64 w.elapsed r.elapsed)).name = w.name from rfl,
          ← hr]
        exact h3
      · rw [if_neg hr]
        rw [List.sorted_cons]
        refine ⟨?_, ih r hrt⟩
        intro b hb
        have hbn := fold_go_names rest r b hb
        unfold nameLe
        rcases List.mem_cons.mp hbn with h1 | h1
        · rw [h1]
          exact hw r (by simp)
        · rw [List.mem_map] at h1
          obtain ⟨c, hc, hcn⟩ := h1
          rw [← hcn]
          exact hw c (by simp [hc])

theorem fold_merged_sorted (l : List FlatStack) (h : List.Sorted nameLe l) :
    List.Sorted nameLe (fold_merged l) := by
  cases l with
  | nil => simp [fold_merged]
  | cons r rest => exact fold_go_sorted rest r h

/-- C9: for every flattened record list, the folded records that reach the
report are sorted: every adjacent pair satisfies `path[i] <= path[i+1]` in
the byte-lexicographic order of `qsort_compare_stacks` — the sort establishes
the order and the fold pass (including its final-record cutoff) preserves
it. -/
theorem c9_theorem (l : List FlatStack) :
    List.Chain' nameLe (fold_printed (sort_stacks l)) := by
  have hs : List.Sorted nameLe (sort_stacks l) := List.sorted_insertionSort nameLe l
  have hm := fold_merged_sorted _ hs
  have hd : List.Sorted nameLe (fold_printed (sort_stacks l)) :=
    List.Pairwise.sublist (List.dropLast_sublist _) hm
  exact hd.chain'


theorem sub64_eq_sub (e o : Nat) (h1 : o ≤ e) (h2 : e < W) : sub64 e o = e - o := by
  unfold sub64
  rw [Nat.mod_eq_of_lt (show o < W from lt_of_le_of_lt h1 h2)]
  have h3 : e + W - o = W + (e - o) := by omega
  rw [h3, Nat.add_mod_left]
  exact Nat.mod_eq_of_lt (by omega)

mutual

theorem reduce_nodes_elapsed : ∀ f : StackFrame,
    (∀ n ∈ all_nodes f, n.overhead ≤ n.elapsed ∧ n.elapsed < W) →
    (all_nodes (reduce_overhead f)).map StackFrame.elapsed
      = (all_nodes f).map (fun m => m.elapsed - m.overhead)
  | .mk s e c ct ov ch, h => by
      have hself := h (.mk s e c ct ov ch) (by rw [all_nodes]; exact List.mem_cons_self _ _)
      have hch : ∀ n ∈ all_nodes_forest ch, n.overhead ≤ n.elapsed ∧ n.elapsed < W := by
        intro n hn
        exact h n (by rw [all_nodes]; exact List.mem_cons_of_mem _ hn)
      rw [reduce_overhead, all_nodes, all_nodes]
      simp only [List.map_cons]
      rw [reduce_forest_elapsed ch hch]
      rw [show (StackFrame.mk s (sub64 e ov) c ct ov (reduce_overhead_forest ch)).elapsed
          = sub64 e ov from rfl]
      rw [sub64_eq_sub e ov hself.1 hself.2]
      rfl

theorem reduce_forest_elapsed : ∀ l : List StackFrame,
    (∀ n ∈ all_nodes_forest l, n.overhead ≤ n.elapsed ∧ n.elapsed < W) →
    (all_nodes_forest (reduce_overhead_forest l)).map StackFrame.elapsed
      = (all_nodes_forest l).map (fun m => m.elapsed - m.overhead)
  | [], _ => by rw [reduce_overhead_forest]; rfl
  | f :: rest, h => by
      rw [reduce_overhead_forest, all_nodes_forest, all_nodes_forest]
      simp only [List.map_append]
      rw [reduce_nodes_elapsed f
          (fun n hn => h n (by rw [all_nodes_forest]; exact List.mem_append_left _ hn)),
        reduce_forest_elapsed rest
          (fun n hn => h n (by rw [all_nodes_forest]; exact List.mem_append_right _ hn))]

end

/-- C5 (amended): `reduce_overhead` replaces every node's `elapsed` —
the root sentinel included — by `elapsed - overhead`, and on every node
satisfying `overhead ≤ elapsed` (with `elapsed` a 64-bit value) the wrapping
subtraction equals the true difference, i.e. it does not underflow.  The
unamended claim fails only at the root sentinel, whose `elapsed` stays 0
while returns of top-level frames accumulate into its `overhead`
(see the C5 counterexample). -/
theorem c5_theorem (f : StackFrame)
    (h : ∀ n ∈ all_nodes f, n.overhead ≤ n.elapsed ∧ n.elapsed < W) :
    (all_nodes (reduce_overhead f)).map StackFrame.elapsed
      = (all_nodes f).map (fun m => m.elapsed - m.overhead) :=
  reduce_nodes_elapsed f h


/-- C5 witness: the amended theorem applied to a concrete two-node tree. -/
theorem c5_witness :
    (∀ n ∈ all_nodes exC5w, n.overhead ≤ n.elapsed ∧ n.elapsed < W) ∧
    (all_nodes (reduce_overhead exC5w)).map StackFrame.elapsed
      = (all_nodes exC5w).map (fun m => m.elapsed - m.overhead) :=
  ⟨by decide, c5_theorem exC5w (by decide)⟩


theorem path_fold_cons (plat : Nat → Option String) (heap : List (Nat × String))
    (pfx : String) (c : CodeLocation) (q : List CodeLocation) :
    path_fold plat heap pfx (c :: q)
      = path_fold plat heap (pfx ++ ";" ++ seg_string plat heap c) q := rfl

mutual

theorem append_children_names : ∀ (plat : Nat → Option String) (heap : List (Nat × String))
    (f : StackFrame) (pfx : String) (cache : List ResolvedFrame), cache_ok plat cache →
    (append_children plat heap f pfx cache).1.map FlatStack.name
      = (pfx ++ ";" ++ seg_string plat heap f.code)
        :: (sPaths (shapeOf f)).map
            (path_fold plat heap (pfx ++ ";" ++ seg_string plat heap f.code)) ∧
    cache_ok plat (append_children plat heap f pfx cache).2
  | plat, heap, .mk s e ⟨ty, ad⟩ ct ov ch, pfx, cache, hc => by
      cases ty with
      | CLT_Lua =>
          have hrec := append_forest_names plat heap ch
            (pfx ++ ";" ++ ("LUA:" ++ addr_string heap ad)) cache hc
          simp only [append_children, List.map_cons]
          exact ⟨by rw [hrec.1]; rfl, hrec.2⟩
      | CLT_LuaAnonymous =>
          have hrec := append_forest_names plat heap ch
            (pfx ++ ";" ++ ("LUA:" ++ addr_string heap ad)) cache hc
          simp only [append_children, List.map_cons]
          exact ⟨by rw [hrec.1]; rfl, hrec.2⟩
      | CLT_Main =>
          have hrec := append_forest_names plat heap ch
            (pfx ++ ";" ++ ("LUA:" ++ "Lua:main")) cache hc
          simp only [append_children, List.map_cons]
          exact ⟨by rw [hrec.1]; rfl, hrec.2⟩
      | CLT_C =>
          obtain ⟨hr1, hr2, _⟩ := resovle_ok plat cache (cfnVal ad) hc
          have hrec := append_forest_names plat heap ch
            (pfx ++ ";" ++ ("C:" ++ (resovle plat cache (cfnVal ad)).1))
            (resovle plat cache (cfnVal ad)).2.1 hr2
          simp only [append_children, List.map_cons]
          refine ⟨?_, hrec.2⟩
          rw [hrec.1, hr1]
          rfl

theorem append_forest_names : ∀ (plat : Nat → Option String) (heap : List (Nat × String))
    (l : List StackFrame) (pfx : String) (cache : List ResolvedFrame), cache_ok plat cache →
    (append_forest plat heap l pfx cache).1.map FlatStack.name
      = (sPathsF (shapeForest l)).map (path_fold plat heap pfx) ∧
    cache_ok plat (append_forest plat heap l pfx cache).2
  | plat, heap, [], pfx, cache, hc => ⟨rfl, hc⟩
  | plat, heap, f :: rest, pfx, cache, hc => by
      have h1 := append_children_names plat heap f pfx cache hc
      have h2 := append_forest_names plat heap rest pfx
        (append_children plat heap f pfx cache).2 h1.2
      simp only [append_forest, List.map_append]
      refine ⟨?_, h2.2⟩
      rw [h1.1, h2.1]
      have hcode : (shapeOf f).code = f.code := by
        cases f with
        | mk s e c ct ov ch => rfl
      simp only [shapeForest, sPathsF, List.map_append, List.map_cons, List.map_map,
        Function.comp, path_fold_cons, hcode]
      rfl

end

/-- C10: the names `flatten_stacks` emits are exactly the paths of the tree,
rendered by folding `parent_path ++ ";" ++ tag ++ display_name` over each
node's code-location chain starting from the fixed literal `"root"`; and a
program-entry (`CLT_Main`) location always renders as the segment
`LUA:Lua:main` (tag `LUA:`, display name the literal `Lua:main`). -/
theorem c10_theorem (plat : Nat → Option String) (heap : List (Nat × String))
    (root : StackFrame) :
    (flatten_stacks plat heap root).map FlatStack.name
      = (sPathsF (shapeForest root.child)).map (path_string plat heap) ∧
    ∀ a, seg_string plat heap ⟨.CLT_Main, a⟩ = "LUA:Lua:main" := by
  constructor
  · have h := append_forest_names plat heap root.child "root" []
      (fun rf hm => absurd hm (List.not_mem_nil rf))
    exact h.1
  · intro a
    rfl


theorem shape_code (f : StackFrame) : (shapeOf f).code = f.code := by
  cases f with
  | mk s e c ct ov ch => rfl

theorem shape_set_enter (t0 t1 : Nat) (f : StackFrame) :
    shapeOf (set_enter t0 t1 f) = shapeOf f := by
  cases f with
  | mk s e c ct ov ch => rfl

theorem shape_set_leave (tStop : Nat) (f : StackFrame) :
    shapeOf (set_leave tStop f) = shapeOf f := by
  cases f with
  | mk s e c ct ov ch => rfl

theorem shapeForest_updCode (d : CodeLocation) (g : StackFrame → StackFrame)
    (g2 : Shape → Shape) (hg : ∀ x, shapeOf (g x) = g2 (shapeOf x)) :
    ∀ l : List StackFrame, shapeForest (updCode d g l) = updS d g2 (shapeForest l) := by
  intro l
  induction l with
  | nil => rfl
  | cons f rest ih =>
      rw [updCode, shapeForest, updS]
      by_cases hf : f.code = d
      · rw [if_pos hf, if_pos (by rw [shape_code]; exact hf), shapeForest, hg]
      · rw [if_neg hf, if_neg (by rw [shape_code]; exact hf), shapeForest, ih]

theorem shapeForest_updCode_pres (d : CodeLocation) (g : StackFrame → StackFrame)
    (hg : ∀ x, shapeOf (g x) = shapeOf x) :
    ∀ l : List StackFrame, shapeForest (updCode d g l) = shapeForest l := by
  intro l
  induction l with
  | nil => rfl
  | cons f rest ih =>
      rw [updCode]
      by_cases hf : f.code = d
      · rw [if_pos hf, shapeForest, shapeForest, hg]
      · rw [if_neg hf, shapeForest, shapeForest, ih]

theorem hasCode_eq (d : CodeLocation) :
    ∀ ch : List StackFrame, hasCode d ch = (findS d (shapeForest ch)).isSome := by
  intro ch
  induction ch with
  | nil => rfl
  | cons f rest ih =>
      rw [hasCode, shapeForest, findS]
      by_cases hf : f.code = d
      · rw [if_pos hf, if_pos (by rw [shape_code]; exact hf)]
        rfl
      · rw [if_neg hf, if_neg (by rw [shape_code]; exact hf), ih]

theorem shape_enter_children (d : CodeLocation) (t0 t1 : Nat) (ch : List StackFrame) :
    shapeForest (enter_children d t0 t1 ch) = enterChildrenS d (shapeForest ch) := by
  rw [enter_children, enterChildrenS]
  by_cases hc : hasCode d ch
  · rw [if_pos hc]
    rw [hasCode_eq] at hc
    cases hu : findS d (shapeForest ch) with
    | none => rw [hu] at hc; simp at hc
    | some u =>
        exact shapeForest_updCode_pres d (set_enter t0 t1) (shape_set_enter t0 t1) ch
  · rw [if_neg hc]
    rw [hasCode_eq] at hc
    cases hu : findS d (shapeForest ch) with
    | none => rw [shapeForest]; rfl
    | some u => rw [hu] at hc; simp at hc

theorem shape_enterAt (d : CodeLocation) (t0 t1 : Nat) :
    ∀ (p : List CodeLocation) (f : StackFrame),
      shapeOf (enterAt d t0 t1 f p) = enterAtS d (shapeOf f) p := by
  intro p
  induction p with
  | nil =>
      intro f
      cases f with
      | mk s e c ct ov ch =>
          rw [enterAt, shapeOf, shapeOf, enterAtS, shape_enter_children]
  | cons b p ih =>
      intro f
      cases f with
      | mk s e c ct ov ch =>
          rw [enterAt, shapeOf, shapeOf, enterAtS,
            shapeForest_updCode b (fun x => enterAt d t0 t1 x p)
              (fun t => enterAtS d t p) (fun x => ih x) ch]

theorem shape_leaveAt (tStop t1 : Nat) :
    ∀ (p : List CodeLocation) (f : StackFrame),
      shapeOf (leaveAt tStop t1 f p) = shapeOf f := by
  intro p
  induction p with
  | nil =>
      intro f
      cases f with
      | mk s e c ct ov ch => rfl
  | cons b p ih =>
      intro f
      cases f with
      | mk s e c ct ov ch =>
          cases p with
          | nil =>
              have h0 : leaveAt tStop t1 (.mk s e c ct ov ch) [b]
                  = .mk s e c ct (add64 ov (sub64 t1 tStop))
                      (updCode b (set_leave tStop) ch) := rfl
              rw [h0, shapeOf, shapeOf,
                shapeForest_updCode_pres b _ (shape_set_leave tStop) ch]
          | cons b2 p2 =>
              have h0 : leaveAt tStop t1 (.mk s e c ct ov ch) (b :: b2 :: p2)
                  = .mk s e c ct ov
                      (updCode b (fun x => leaveAt tStop t1 x (b2 :: p2)) ch) := rfl
              rw [h0, shapeOf, shapeOf,
                shapeForest_updCode_pres b _ (fun x => ih x) ch]

theorem sPathsF_append : ∀ a b : List Shape, sPathsF (a ++ b) = sPathsF a ++ sPathsF b := by
  intro a b
  induction a with
  | nil => rfl
  | cons t rest ih =>
      rw [List.cons_append, sPathsF, sPathsF, ih, List.append_assoc]

/-- Every listed path starts with the code of one of the siblings, its tail
either empty or a path inside that sibling. -/
theorem sPathsF_shape : ∀ (l : List Shape) (q : List CodeLocation), q ∈ sPathsF l →
    ∃ t ∈ l, ∃ q2, q = t.code :: q2 ∧ (q2 = [] ∨ q2 ∈ sPaths t) := by
  intro l
  induction l with
  | nil => intro q h; rw [sPathsF] at h; cases h
  | cons t rest ih =>
      intro q h
      rw [sPathsF] at h
      rcases List.mem_append.mp h with h1 | h1
      · rcases List.mem_cons.mp h1 with h2 | h2
        · exact ⟨t, List.mem_cons_self t rest, [], h2, Or.inl rfl⟩
        · rw [List.mem_map] at h2
          obtain ⟨q2, hq2, hq⟩ := h2
          exact ⟨t, List.mem_cons_self t rest, q2, hq.symm, Or.inr hq2⟩
      · obtain ⟨u, hu, q2, hq, hq2⟩ := ih q h1
        exact ⟨u, List.mem_cons_of_mem t hu, q2, hq, hq2⟩

theorem sPaths_ne_nil : ∀ t : Shape, [] ∉ sPaths t := by
  intro t h
  cases t with
  | mk c ch =>
      rw [sPaths] at h
      obtain ⟨u, _, q2, hq, _⟩ := sPathsF_shape ch [] h
      cases hq

/-- Paths of a member sibling are paths of the chain, with its code
prepended. -/
theorem sPathsF_mem_of : ∀ (l : List Shape) (t : Shape), t ∈ l →
    [t.code] ∈ sPathsF l ∧ ∀ q ∈ sPaths t, t.code :: q ∈ sPathsF l := by
  intro l
  induction l with
  | nil => intro t ht; cases ht
  | cons u rest ih =>
      intro t ht
      rw [sPathsF]
      rcases List.mem_cons.mp ht with h1 | h1
      · subst h1
        constructor
        · exact List.mem_append_left _ (List.mem_cons_self _ _)
        · intro q hq
          exact List.mem_append_left _
            (List.mem_cons_of_mem _ (List.mem_map_of_mem _ hq))
      · obtain ⟨ha, hb⟩ := ih t h1
        exact ⟨List.mem_append_right _ ha, fun q hq => List.mem_append_right _ (hb q hq)⟩

theorem findS_some : ∀ (l : List Shape) (d : CodeLocation) (u : Shape),
    findS d l = some u → u ∈ l ∧ u.code = d := by
  intro l d
  induction l with
  | nil => intro u h; cases h
  | cons t rest ih =>
      intro u h
      rw [findS] at h
      by_cases ht : t.code = d
      · rw [if_pos ht] at h
        cases h
        exact ⟨List.mem_cons_self _ _, ht⟩
      · rw [if_neg ht] at h
        obtain ⟨h1, h2⟩ := ih u h
        exact ⟨List.mem_cons_of_mem _ h1, h2⟩

theorem findS_none : ∀ (l : List Shape) (d : CodeLocation),
    findS d l = none → ∀ t ∈ l, t.code ≠ d := by
  intro l d
  induction l with
  | nil => intro _ t ht; cases ht
  | cons u rest ih =>
      intro h t ht
      rw [findS] at h
      by_cases hu : u.code = d
      · rw [if_pos hu] at h; cases h
      · rw [if_neg hu] at h
        rcases List.mem_cons.mp ht with h1 | h1
        · subst h1; exact hu
        · exact ih h t h1

theorem findS_updS (d : CodeLocation) (g : Shape → Shape) (hgc : ∀ t, (g t).code = t.code) :
    ∀ (l : List Shape) (u : Shape), findS d l = some u →
      findS d (updS d g l) = some (g u) := by
  intro l
  induction l with
  | nil => intro u h; cases h
  | cons t rest ih =>
      intro u h
      rw [findS] at h
      rw [updS]
      by_cases ht : t.code = d
      · rw [if_pos ht] at h
        cases h
        rw [if_pos ht, findS, if_pos (by rw [hgc]; exact ht)]
      · rw [if_neg ht] at h
        rw [if_neg ht, findS, if_neg ht]
        exact ih u h

/-- Membership of paths under a first-match child rewrite whose effect on the
rewritten child is to add exactly the path `r`. -/
theorem mem_sPathsF_updS (d : CodeLocation) (g : Shape → Shape)
    (hgc : ∀ t, (g t).code = t.code) (r : List CodeLocation) :
    ∀ (l : List Shape) (u : Shape), findS d l = some u →
      (∀ q, q ∈ sPaths (g u) ↔ q ∈ sPaths u ∨ q = r) →
      ∀ q, q ∈ sPathsF (updS d g l) ↔ q ∈ sPathsF l ∨ q = d :: r := by
  intro l
  induction l with
  | nil => intro u h; cases h
  | cons t rest ih =>
      intro u h hiff q
      rw [findS] at h
      rw [updS]
      by_cases ht : t.code = d
      · rw [if_pos ht] at h
        cases h
        rw [if_pos ht, sPathsF, sPathsF]
        simp only [List.mem_append, List.mem_cons, List.mem_map, hgc, hiff, ht]
        constructor
        · rintro ((h1 | ⟨x, hx1 | hx1, hx2⟩) | h1)
          · exact Or.inl (Or.inl (Or.inl h1))
          · exact Or.inl (Or.inl (Or.inr ⟨x, hx1, hx2⟩))
          · subst hx1; exact Or.inr hx2.symm
          · exact Or.inl (Or.inr h1)
        · rintro ((( h1 | ⟨x, hx1, hx2⟩) | h1) | h1)
          · exact Or.inl (Or.inl h1)
          · exact Or.inl (Or.inr ⟨x, Or.inl hx1, hx2⟩)
          · exact Or.inr h1
          · exact Or.inl (Or.inr ⟨r, Or.inr rfl, h1.symm⟩)
      · rw [if_neg ht] at h
        rw [if_neg ht, sPathsF, sPathsF]
        simp only [List.mem_append]
        have := ih u h hiff q
        constructor
        · rintro (h1 | h1)
          · exact Or.inl (Or.inl h1)
          · rcases this.mp h1 with h2 | h2
            · exact Or.inl (Or.inr h2)
            · exact Or.inr h2
        · rintro ((h1 | h1) | h1)
          · exact Or.inl h1
          · exact Or.inr (this.mpr (Or.inl h1))
          · exact Or.inr (this.mpr (Or.inr h1))

theorem code_enterAtS (d : CodeLocation) (p : List CodeLocation) (t : Shape) :
    (enterAtS d t p).code = t.code := by
  cases t with
  | mk c ch =>
      cases p with
      | nil => rfl
      | cons b p2 => rfl

/-- Entering at a valid cursor path adds exactly the path `p ++ [d]` to the
path set (which may already contain it, when the child is reused). -/
theorem sPaths_enterAtS : ∀ (p : List CodeLocation) (t : Shape) (d : CodeLocation),
    sHasPath t p = true →
    ∀ q, q ∈ sPaths (enterAtS d t p) ↔ q ∈ sPaths t ∨ q = p ++ [d] := by
  intro p
  induction p with
  | nil =>
      intro t d _ q
      cases t with
      | mk c ch =>
          rw [enterAtS, sPaths, sPaths, enterChildrenS, List.nil_append]
          cases hu : findS d ch with
          | some u =>
              have hm := findS_some ch d u hu
              have hd : [d] ∈ sPathsF ch := by
                have h2 := (sPathsF_mem_of ch u hm.1).1
                rw [hm.2] at h2
                exact h2
              constructor
              · exact fun h => Or.inl h
              · rintro (h | h)
                · exact h
                · rw [h]; exact hd
          | none =>
              rw [sPathsF, sPaths, sPathsF]
              simp only [List.map_nil, List.nil_append, List.cons_append,
                List.mem_cons, List.mem_append]
              have hcode : (Shape.mk d []).code = d := rfl
              rw [hcode]
              constructor
              · rintro (h | h)
                · exact Or.inr h
                · exact Or.inl h
              · rintro (h | h)
                · exact Or.inr h
                · exact Or.inl h
  | cons b p ih =>
      intro t d h q
      cases t with
      | mk c ch =>
          rw [sHasPath] at h
          rw [show (Shape.mk c ch).child = ch from rfl] at h
          cases hu : findS b ch with
          | none => rw [hu] at h; cases h
          | some u =>
              rw [hu] at h
              rw [enterAtS, sPaths, sPaths, List.cons_append]
              exact mem_sPathsF_updS b (fun x => enterAtS d x p)
                (fun x => code_enterAtS d p x) (p ++ [d]) ch u hu (ih u d h) q

theorem sHasPath_enterAtS : ∀ (p : List CodeLocation) (t : Shape) (d : CodeLocation),
    sHasPath t p = true → sHasPath (enterAtS d t p) (p ++ [d]) = true := by
  intro p
  induction p with
  | nil =>
      intro t d _
      cases t with
      | mk c ch =>
          rw [enterAtS, List.nil_append, sHasPath]
          have hch : (Shape.mk c (enterChildrenS d ch)).child = enterChildrenS d ch := rfl
          rw [hch, enterChildrenS]
          cases hu : findS d ch with
          | some u => rw [hu]; rfl
          | none =>
              rw [findS, if_pos (show (Shape.mk d []).code = d from rfl)]
              rfl
  | cons b p ih =>
      intro t d h
      cases t with
      | mk c ch =>
          rw [sHasPath] at h
          rw [show (Shape.mk c ch).child = ch from rfl] at h
          cases hu : findS b ch with
          | none => rw [hu] at h; cases h
          | some u =>
              rw [hu] at h
              rw [enterAtS, List.cons_append, sHasPath]
              have hch : (Shape.mk c (updS b (fun x => enterAtS d x p) ch)).child
                  = updS b (fun x => enterAtS d x p) ch := rfl
              rw [hch, findS_updS b (fun x => enterAtS d x p)
                (fun x => code_enterAtS d p x) ch u hu]
              exact ih u d h

theorem codesOf_updS (d : CodeLocation) (g : Shape → Shape)
    (hgc : ∀ t, (g t).code = t.code) :
    ∀ l : List Shape, codesOf (updS d g l) = codesOf l := by
  intro l
  induction l with
  | nil => rfl
  | cons t rest ih =>
      rw [updS]
      by_cases ht : t.code = d
      · rw [if_pos ht, codesOf, codesOf, List.map_cons, List.map_cons, hgc]
      · rw [if_neg ht, codesOf, codesOf, List.map_cons, List.map_cons]
        have h2 : codesOf (updS d g rest) = codesOf rest := ih
        rw [codesOf, codesOf] at h2
        rw [h2]

theorem sibsOkF_mem : ∀ l : List Shape, sibsOkF l → ∀ t ∈ l, sibsOk t := by
  intro l
  induction l with
  | nil => intro _ t ht; cases ht
  | cons u rest ih =>
      intro h t ht
      rw [sibsOkF] at h
      rcases List.mem_cons.mp ht with h1 | h1
      · subst h1; exact h.1
      · exact ih h.2 t h1

theorem sibsOkF_updS (d : CodeLocation) (g : Shape → Shape) :
    ∀ (l : List Shape) (u : Shape), findS d l = some u → sibsOk (g u) →
      sibsOkF l → sibsOkF (updS d g l) := by
  intro l
  induction l with
  | nil => intro u h; cases h
  | cons t rest ih =>
      intro u h hgu hok
      rw [findS] at h
      rw [sibsOkF] at hok
      rw [updS]
      by_cases ht : t.code = d
      · rw [if_pos ht] at h
        cases h
        rw [if_pos ht, sibsOkF]
        exact ⟨hgu, hok.2⟩
      · rw [if_neg ht] at h
        rw [if_neg ht, sibsOkF]
        exact ⟨hok.1, ih u h hgu hok.2⟩

theorem sibsOk_enterAtS : ∀ (p : List CodeLocation) (t : Shape) (d : CodeLocation),
    sHasPath t p = true → sibsOk t → sibsOk (enterAtS d t p) := by
  intro p
  induction p with
  | nil =>
      intro t d _ hok
      cases t with
      | mk c ch =>
          rw [enterAtS, enterChildrenS]
          rw [sibsOk] at hok
          cases hu : findS d ch with
          | some u => rw [sibsOk]; exact hok
          | none =>
              rw [sibsOk]
              constructor
              · rw [codesOf, List.map_cons]
                apply List.nodup_cons.mpr
                refine ⟨?_, hok.1⟩
                intro hmem
                rw [show (Shape.mk d []).code = d from rfl] at hmem
                rw [List.mem_map] at hmem
                obtain ⟨x, hx, hxc⟩ := hmem
                exact findS_none ch d hu x hx hxc
              · rw [sibsOkF]
                refine ⟨?_, hok.2⟩
                rw [sibsOk]
                exact ⟨List.nodup_nil, trivial⟩
  | cons b p ih =>
      intro t d h hok
      cases t with
      | mk c ch =>
          rw [sHasPath] at h
          rw [show (Shape.mk c ch).child = ch from rfl] at h
          cases hu : findS b ch with
          | none => rw [hu] at h; cases h
          | some u =>
              rw [hu] at h
              rw [sibsOk] at hok
              rw [enterAtS, sibsOk]
              constructor
              · rw [codesOf_updS b (fun x => enterAtS d x p)
                  (fun x => code_enterAtS d p x) ch]
                exact hok.1
              · have hu2 := findS_some ch b u hu
                have hoku : sibsOk u := sibsOkF_mem ch hok.2 u hu2.1
                exact sibsOkF_updS b (fun x => enterAtS d x p) ch u hu
                  (ih u d h hoku) hok.2

theorem sHasPath_dropLast : ∀ (p : List CodeLocation) (t : Shape),
    sHasPath t p = true → sHasPath t p.dropLast = true := by
  intro p
  induction p with
  | nil => intro t h; exact h
  | cons b p ih =>
      intro t h
      cases p with
      | nil => rfl
      | cons b2 p2 =>
          rw [sHasPath] at h
          have hdl : (b :: b2 :: p2).dropLast = b :: (b2 :: p2).dropLast := rfl
          rw [hdl, sHasPath]
          cases hu : findS b t.child with
          | none => rw [hu] at h; cases h
          | some u =>
              rw [hu] at h
              exact ih u h

mutual

/-- With pairwise distinct sibling codes everywhere, no node path is listed
twice. -/
theorem sPaths_nodup : ∀ t : Shape, sibsOk t → (sPaths t).Nodup
  | .mk c ch, h => by
      rw [sPaths]
      rw [sibsOk] at h
      exact sPathsF_nodup ch h.1 h.2

theorem sPathsF_nodup : ∀ l : List Shape, (codesOf l).Nodup → sibsOkF l → (sPathsF l).Nodup
  | [], _, _ => by rw [sPathsF]; exact List.nodup_nil
  | t :: rest, hcodes, hok => by
      rw [sPathsF]
      rw [sibsOkF] at hok
      rw [codesOf, List.map_cons] at hcodes
      have hcodes2 := List.nodup_cons.mp hcodes
      apply List.Nodup.append
      · apply List.nodup_cons.mpr
        constructor
        · intro hmem
          rw [List.mem_map] at hmem
          obtain ⟨q, hq, he⟩ := hmem
          have hq0 : q = [] := by
            have := (List.cons.injEq _ _ _ _).mp he
            exact this.2
          subst hq0
          exact sPaths_ne_nil t hq
        · exact (sPaths_nodup t hok.1).map
            (fun x y hxy => (List.cons.injEq _ _ _ _).mp hxy |>.2)
      · exact sPathsF_nodup rest (by rw [codesOf]; exact hcodes2.2) hok.2
      · intro q hq1 hq2
        obtain ⟨u, hu, q2, hq, _⟩ := sPathsF_shape rest q hq2
        have hhead : q.head? = some t.code := by
          rcases List.mem_cons.mp hq1 with h1 | h1
          · rw [h1]; rfl
          · rw [List.mem_map] at h1
            obtain ⟨x, _, hx⟩ := h1
            rw [← hx]; rfl
        rw [hq] at hhead
        have : u.code = t.code := by
          have h2 : some u.code = some t.code := hhead
          exact Option.some.inj h2
        apply hcodes2.1
        rw [← this]
        exact List.mem_map_of_mem Shape.code hu

end

mutual

theorem sCount_sPaths : ∀ t : Shape, sCount t = (sPaths t).length + 1
  | .mk c ch => by
      rw [sCount, sPaths, sCountF_sPathsF ch]
      omega

theorem sCountF_sPathsF : ∀ l : List Shape, (sPathsF l).length = sCountF l
  | [] => rfl
  | t :: rest => by
      rw [sPathsF, sCountF, List.length_append, List.length_cons, List.length_map,
        sCountF_sPathsF rest, sCount_sPaths t]

end

mutual

theorem count_nodes_shape : ∀ f : StackFrame, count_nodes f = sCount (shapeOf f)
  | .mk s e c ct ov ch => by
      rw [count_nodes, shapeOf, sCount, count_forest_shape ch]

theorem count_forest_shape : ∀ l : List StackFrame, count_forest l = sCountF (shapeForest l)
  | [] => rfl
  | f :: rest => by
      rw [count_forest, shapeForest, sCountF, count_nodes_shape f, count_forest_shape rest]

end

theorem snoc_injective :
    Function.Injective (fun pr : List CodeLocation × CodeLocation => pr.1 ++ [pr.2]) := by
  rintro ⟨p1, c1⟩ ⟨p2, c2⟩ h
  simp only at h
  have h2 := congrArg List.reverse h
  simp only [List.reverse_append, List.reverse_cons, List.reverse_nil,
    List.nil_append, List.cons_append, List.singleton_append] at h2
  obtain ⟨hc, hp⟩ := (List.cons.injEq _ _ _ _).mp h2
  have hrev := List.reverse_injective hp
  rw [Prod.mk.injEq]
  exact ⟨hrev, hc⟩

theorem toFinset_map_list {α β : Type} [DecidableEq α] [DecidableEq β] (f : α → β)
    (l : List α) : (l.map f).toFinset = l.toFinset.image f := by
  apply Finset.ext
  intro b
  simp [List.mem_toFinset, Finset.mem_image, List.mem_map]

theorem runT_nil (s : PState) : runT s [] = some (s, []) := rfl

theorem runT_call (tr : StackFrame) (pa : List CodeLocation) (al : AllocState)
    (ar : LuaDebug) (t0 t1 : Nat) (rest : List Event) :
    runT ⟨tr, pa, al⟩ (.call ar t0 t1 :: rest)
      = match parseCodeLocation ar al with
        | none => none
        | some (cl, st) =>
            match runT ⟨enterAt cl t0 t1 tr pa, pa ++ [cl], st⟩ rest with
            | none => none
            | some (s2, ps) => some (s2, (pa, cl) :: ps) := rfl

theorem runT_ret (tr : StackFrame) (pa : List CodeLocation) (al : AllocState)
    (tStop t1 : Nat) (rest : List Event) :
    runT ⟨tr, pa, al⟩ (.ret tStop t1 :: rest)
      = match pa with
        | [] => none
        | _ :: _ => runT ⟨leaveAt tStop t1 tr pa, pa.dropLast, al⟩ rest := rfl

/-- Running the hook from any state satisfying the builder invariant
preserves it, and the final path set is the initial one plus the image of
every observed (parent-path, code) pair. -/
theorem runT_paths : ∀ (evs : List Event) (s s2 : PState)
    (ps : List (List CodeLocation × CodeLocation)),
    runT s evs = some (s2, ps) → StInv s →
    StInv s2 ∧ ∀ q, q ∈ sPaths (shapeOf s2.tree) ↔
      (q ∈ sPaths (shapeOf s.tree) ∨ q ∈ ps.map (fun pr => pr.1 ++ [pr.2])) := by
  intro evs
  induction evs with
  | nil =>
      intro s s2 ps h hinv
      rw [runT_nil] at h
      obtain ⟨h1, h2⟩ := Prod.mk.injEq _ _ _ _ |>.mp (Option.some.inj h)
      subst h1
      subst h2
      exact ⟨hinv, fun q => by simp⟩
  | cons e rest ih =>
      intro s s2 ps h hinv
      obtain ⟨tr, pa, al⟩ := s
      cases e with
      | call ar t0 t1 =>
          rw [runT_call] at h
          split at h
          · cases h
          · next cl st hp =>
              split at h
              · cases h
              · next s2x psx hr =>
                  obtain ⟨h1, h2⟩ := Prod.mk.injEq _ _ _ _ |>.mp (Option.some.inj h)
                  subst h1
                  subst h2
                  have hsh : shapeOf (enterAt cl t0 t1 tr pa)
                      = enterAtS cl (shapeOf tr) pa := shape_enterAt cl t0 t1 pa tr
                  have hinv2 : StInv ⟨enterAt cl t0 t1 tr pa, pa ++ [cl], st⟩ := by
                    constructor
                    · show sibsOk (shapeOf (enterAt cl t0 t1 tr pa))
                      rw [hsh]
                      exact sibsOk_enterAtS pa (shapeOf tr) cl hinv.2 hinv.1
                    · show sHasPath (shapeOf (enterAt cl t0 t1 tr pa)) (pa ++ [cl]) = true
                      rw [hsh]
                      exact sHasPath_enterAtS pa (shapeOf tr) cl hinv.2
                  obtain ⟨hinv3, hmem⟩ := ih _ s2x psx hr hinv2
                  refine ⟨hinv3, ?_⟩
                  intro q
                  have hnew : q ∈ sPaths (shapeOf (enterAt cl t0 t1 tr pa))
                      ↔ q ∈ sPaths (shapeOf tr) ∨ q = pa ++ [cl] := by
                    rw [hsh]
                    exact sPaths_enterAtS pa (shapeOf tr) cl hinv.2 q
                  have hq := hmem q
                  rw [hq, hnew]
                  simp only [List.map_cons, List.mem_cons]
                  tauto
      | ret tStop t1 =>
          rw [runT_ret] at h
          split at h
          · cases h
          · next b p2 =>
              have hinv2 : StInv ⟨leaveAt tStop t1 tr (b :: p2), (b :: p2).dropLast, al⟩ := by
                constructor
                · show sibsOk (shapeOf (leaveAt tStop t1 tr (b :: p2)))
                  rw [shape_leaveAt]
                  exact hinv.1
                · show sHasPath (shapeOf (leaveAt tStop t1 tr (b :: p2)))
                      ((b :: p2).dropLast) = true
                  rw [shape_leaveAt]
                  exact sHasPath_dropLast (b :: p2) (shapeOf tr) hinv.2
              obtain ⟨hinv3, hmem⟩ := ih _ s2 ps h hinv2
              refine ⟨hinv3, ?_⟩
              intro q
              have hq := hmem q
              rw [hq]
              have hsh : shapeOf (leaveAt tStop t1 tr (b :: p2)) = shapeOf tr :=
                shape_leaveAt tStop t1 (b :: p2) tr
              rw [hsh]

/-- C4 (amended): the profiler's location identity is pointer identity
(`type` and raw `addr` both equal); under it, for every well-nested event
sequence the run succeeds and the number of tree nodes equals the number of
distinct observed (parent-path, code-location) pairs — where an anonymous
location's identity is its freshly `strdup`-ed pointer, so repeated calls to
the same anonymous `file:line` site yield distinct pairs and distinct nodes
(see the C4 counterexample), while native, named and program-entry sites
compare by payload and are reused. -/
theorem c4_theorem (evs : List Event) (s : PState)
    (ps : List (List CodeLocation × CodeLocation))
    (h : runT init_state evs = some (s, ps)) :
    count_forest s.tree.child = ps.dedup.length := by
  have hinv0 : StInv init_state := by
    constructor
    · show sibsOk (Shape.mk ⟨.CLT_Lua, .nullA⟩ [])
      rw [sibsOk]
      exact ⟨List.nodup_nil, trivial⟩
    · rfl
  obtain ⟨hinv, hmem⟩ := runT_paths evs init_state s ps h hinv0
  have hmem2 : ∀ q, q ∈ sPaths (shapeOf s.tree)
      ↔ q ∈ ps.map (fun pr => pr.1 ++ [pr.2]) := by
    intro q
    rw [hmem q]
    have hempty : sPaths (shapeOf init_state.tree) = [] := rfl
    rw [hempty]
    simp
  have hsplit : sPaths (shapeOf s.tree) = sPathsF (shapeForest s.tree.child) := by
    cases hs : s.tree with
    | mk a b c d e ch => rw [shapeOf, sPaths, StackFrame.child]
  have hcount : count_forest s.tree.child = (sPaths (shapeOf s.tree)).length := by
    rw [count_forest_shape, hsplit, sCountF_sPathsF]
  have hnodup : (sPaths (shapeOf s.tree)).Nodup := sPaths_nodup (shapeOf s.tree) hinv.1
  rw [hcount]
  have hfin : (sPaths (shapeOf s.tree)).toFinset
      = (ps.map (fun pr => pr.1 ++ [pr.2])).toFinset := by
    apply Finset.ext
    intro q
    rw [List.mem_toFinset, List.mem_toFinset]
    exact hmem2 q
  calc (sPaths (shapeOf s.tree)).length
      = (sPaths (shapeOf s.tree)).toFinset.card := (List.toFinset_card_of_nodup hnodup).symm
    _ = (ps.map (fun pr => pr.1 ++ [pr.2])).toFinset.card := by rw [hfin]
    _ = (ps.toFinset.image (fun pr => pr.1 ++ [pr.2])).card := by rw [toFinset_map_list]
    _ = ps.toFinset.card := Finset.card_image_of_injective _ snoc_injective
    _ = ps.dedup.length := List.card_toFinset ps


/-- C4 witness: the amended node-count theorem applied to the concrete
anonymous-site trace (two nodes, two distinct pointer-identity pairs). -/
theorem c4_witness : count_forest c4run.1.tree.child = c4run.2.dedup.length :=
  c4_theorem evsC4 c4run.1 c4run.2 rfl

end Premake
